import Mathlib

/-!
Verification of the meshtext glyph-meshing core against its specification.

The Rust sources are embedded shallowly: `f32` coordinates are modelled as
exact rationals (`ℚ`), `Vec<T>` as `List T`, `usize`/`u32` indices as `ℕ`,
fallible operations as `Option`/`Except`, and the iteration order of
`std::collections::HashMap` (which is not a function of the program's inputs)
as an explicit listing parameter constrained to enumerate the key set.
-/

namespace Meshtext

/-- `QualitySettings` from `lib.rs`: the number of interpolation steps used to
flatten quadratic and cubic Bézier curves. -/
structure QualitySettings where
  quad_interpolation_steps : ℕ
  cubic_interpolation_steps : ℕ
deriving DecidableEq, Repr

/-- `type Point = (f32, f32)` from `outline_builder.rs`, with coordinates
modelled as exact rationals. -/
abbrev Point := ℚ × ℚ

/-- `Outline` from `outline_builder.rs`: index lists forming contours over a
shared point cloud. -/
structure Outline where
  contours : List (List ℕ)
  points : List Point
deriving DecidableEq, Repr

/-- `OutlineBuilder` state from `outline_builder.rs`. -/
structure OutlineBuilder where
  font_height : ℚ
  quality : QualitySettings
  contours : List (List ℕ)
  current_contour : List ℕ
  points : List Point
  current_point : Point
deriving DecidableEq, Repr

/-- `OutlineBuilder::new` from `outline_builder.rs`. -/
def OutlineBuilder.new (font_height : ℚ) (quality : QualitySettings) : OutlineBuilder :=
  ⟨font_height, quality, [], [], [], (0, 0)⟩

/-- `OutlineBuilder::into_outline` from `outline_builder.rs`. -/
def OutlineBuilder.into_outline (b : OutlineBuilder) : Outline :=
  ⟨b.contours, b.points⟩

/-- `OutlineBuilder::add_segment` from `outline_builder.rs`: records the raw
point as `current_point`, pushes the next free index onto the current contour,
and pushes the point divided by `font_height` into the point cloud. -/
def OutlineBuilder.add_segment (b : OutlineBuilder) (p : Point) : OutlineBuilder :=
  { b with
      current_point := p
      current_contour := b.current_contour ++ [b.points.length]
      points := b.points ++ [(p.1 / b.font_height, p.2 / b.font_height)] }

/-- `OutlineBuilder::move_to` from `outline_builder.rs`. -/
def OutlineBuilder.move_to (b : OutlineBuilder) (x y : ℚ) : OutlineBuilder :=
  b.add_segment (x, y)

/-- `OutlineBuilder::line_to` from `outline_builder.rs`. -/
def OutlineBuilder.line_to (b : OutlineBuilder) (x y : ℚ) : OutlineBuilder :=
  b.add_segment (x, y)

/-- `lerp_points` from `outline_builder.rs`. -/
def lerp_points (a b : Point) (t : ℚ) : Point :=
  (a.1 - (a.1 - b.1) * t, a.2 - (a.2 - b.2) * t)

/-- `point_on_quad` from `outline_builder.rs`: degree-2 de Casteljau
evaluation of the quadratic Bézier `{p0, p1, p2}` at parameter `t`. -/
def point_on_quad (p0 p1 p2 : Point) (t : ℚ) : Point :=
  lerp_points (lerp_points p0 p1 t) (lerp_points p1 p2 t) t

/-- `point_on_cubic` from `outline_builder.rs`. -/
def point_on_cubic (p0 p1 p2 p3 : Point) (t : ℚ) : Point :=
  lerp_points (point_on_quad p0 p1 p2 t) (point_on_quad p1 p2 p3 t) t

/-- One iteration of the loop in `OutlineBuilder::quad_to`: evaluate the
quadratic at `t = (i+1)/n` from the accumulator's `current_point` (which
`line_to` mutates on every iteration) and append the result. -/
def quadStep (p1 p2 : Point) (n : ℕ) (acc : OutlineBuilder) (i : ℕ) : OutlineBuilder :=
  let t : ℚ := ((i + 1 : ℕ) : ℚ) / (n : ℚ)
  let q := point_on_quad acc.current_point p1 p2 t
  acc.line_to q.1 q.2

/-- `OutlineBuilder::quad_to` from `outline_builder.rs`: the loop
`for step in 1..=quad_interpolation_steps`. -/
def OutlineBuilder.quad_to (b : OutlineBuilder) (p1 p2 : Point) : OutlineBuilder :=
  (List.range b.quality.quad_interpolation_steps).foldl
    (quadStep p1 p2 b.quality.quad_interpolation_steps) b

/-- One iteration of the loop in `OutlineBuilder::curve_to`. -/
def cubicStep (p1 p2 p3 : Point) (n : ℕ) (acc : OutlineBuilder) (i : ℕ) : OutlineBuilder :=
  let t : ℚ := ((i + 1 : ℕ) : ℚ) / (n : ℚ)
  let q := point_on_cubic acc.current_point p1 p2 p3 t
  acc.line_to q.1 q.2

/-- `OutlineBuilder::curve_to` from `outline_builder.rs`. -/
def OutlineBuilder.curve_to (b : OutlineBuilder) (p1 p2 p3 : Point) : OutlineBuilder :=
  (List.range b.quality.cubic_interpolation_steps).foldl
    (cubicStep p1 p2 p3 b.quality.cubic_interpolation_steps) b

/-- `OutlineBuilder::close` from `outline_builder.rs`: pops the last point and
the last contour index unconditionally, then pushes `current_contour[0]` and
moves the whole scratch contour into `contours` (`split_off(0)`). The Rust
indexing `current_contour[0]` panics when the popped scratch contour is empty;
the panic is modelled as `none`. -/
def OutlineBuilder.close (b : OutlineBuilder) : Option OutlineBuilder :=
  match b.current_contour.dropLast with
  | [] => none
  | i0 :: rest =>
      some { b with
              points := b.points.dropLast
              current_contour := []
              contours := b.contours ++ [(i0 :: rest) ++ [i0]] }

/-- A drawing command as delivered by `ttf_parser`'s outline traversal to the
`ttf_parser::OutlineBuilder` impl in `outline_builder.rs`. -/
inductive Command where
  | move (x y : ℚ)
  | line (x y : ℚ)
  | quad (x1 y1 x2 y2 : ℚ)
  | cubic (x1 y1 x2 y2 x3 y3 : ℚ)
  | close
deriving DecidableEq, Repr

/-- Dispatch of one drawing command to the builder. -/
def OutlineBuilder.step (b : OutlineBuilder) : Command → Option OutlineBuilder
  | .move x y => some (b.move_to x y)
  | .line x y => some (b.line_to x y)
  | .quad x1 y1 x2 y2 => some (b.quad_to (x1, y1) (x2, y2))
  | .cubic x1 y1 x2 y2 x3 y3 => some (b.curve_to (x1, y1) (x2, y2) (x3, y3))
  | .close => b.close

/-- Run a whole command stream through the builder. -/
def OutlineBuilder.run (b : OutlineBuilder) : List Command → Option OutlineBuilder
  | [] => some b
  | c :: cs => (b.step c).bind (fun b2 => OutlineBuilder.run b2 cs)

/-- Shape of a sealed contour: the trailing entry repeats the first index and
the underlying index list is duplicate-free. -/
def ContourShape (c : List ℕ) : Prop :=
  ∃ l : List ℕ, l ≠ [] ∧ l.Nodup ∧ c = l ++ [l.headI]

/-- Invariant maintained by the Outline Builder: scratch-contour indices point
into the point cloud and increase strictly, and every sealed contour has the
`ContourShape` form. -/
structure BuilderInv (b : OutlineBuilder) : Prop where
  cc_lt : ∀ i ∈ b.current_contour, i < b.points.length
  cc_pair : b.current_contour.Pairwise (· < ·)
  shape : ∀ c ∈ b.contours, ContourShape c

/-- The polyline recurrence actually implemented by `quad_to`: step `k + 1`
re-evaluates the quadratic from the point produced at step `k`, because
`line_to` mutates `current_point` on every iteration. -/
def quadPoint (p1 p2 : Point) (n : ℕ) (p0 : Point) : ℕ → Point
  | 0 => p0
  | k + 1 => point_on_quad (quadPoint p1 p2 n p0 k) p1 p2 (((k + 1 : ℕ) : ℚ) / (n : ℚ))

/-- `ttf_parser::Rect`, the glyph's bounding rectangle in font units
(`i16` coordinates modelled as integers). -/
structure Rect where
  x_min : ℤ
  y_min : ℤ
  x_max : ℤ
  y_max : ℤ
deriving DecidableEq, Repr

/-- `lyon_tessellation::TessellationError`, consumed as a black box. -/
structure TessellationError where
  code : ℕ
deriving DecidableEq, Repr

/-- `Error` from `lib.rs`: its only variant wraps a tessellation error. -/
inductive Error where
  | Tessellation (e : TessellationError)
deriving DecidableEq, Repr

/-- `BoundingBox` from `lib.rs` (`mins`/`maxs` corners). -/
structure BoundingBox where
  mins : ℚ × ℚ × ℚ
  maxs : ℚ × ℚ × ℚ
deriving DecidableEq, Repr

/-- `Mesh` from `lib.rs`. -/
structure Mesh where
  bbox : BoundingBox
  indices : List ℕ
  vertices : List (ℚ × ℚ × ℚ)
deriving DecidableEq, Repr

/-- The output of the external `lyon` fill tessellator for one glyph path:
2-D vertex positions and a flat index list (`VertexBuffers` content before the
extrusion code runs, with the z-coordinate not yet attached). -/
structure TessOutput where
  vertices : List (ℚ × ℚ)
  indices : List ℕ
deriving DecidableEq, Repr

/-- The canonical undirected-edge key from `generate_mesh`:
`if b < a {(b, a)} else {(a, b)}`. -/
def canonEdge (a b : ℕ) : ℕ × ℕ := if b < a then (b, a) else (a, b)

/-- `array_chunks::<3>()` over a flat index list: complete chunks only, any
trailing partial chunk is ignored. -/
def triChunks : List ℕ → List (ℕ × ℕ × ℕ)
  | a :: b :: c :: rest => (a, b, c) :: triChunks rest
  | _ => []

/-- The three directed edges `[(a, b), (b, c), (c, a)]` of one triangle. -/
def triEdges (t : ℕ × ℕ × ℕ) : List (ℕ × ℕ) :=
  [(t.1, t.2.1), (t.2.1, t.2.2), (t.2.2, t.1)]

/-- One toggle of the `HashMap` entry in `generate_mesh`: insert the canonical
key on first sight, remove it on second sight. -/
def toggleStep (s : Finset (ℕ × ℕ)) (e : ℕ × ℕ) : Finset (ℕ × ℕ) :=
  let key := canonEdge e.1 e.2
  if key ∈ s then s.erase key else insert key s

/-- The boundary `edge_set` of `generate_mesh`: fold the toggle over every edge
of every front-cap triangle. The `HashMap` key set is modelled as a `Finset`. -/
def edge_set (l : List ℕ) : Finset (ℕ × ℕ) :=
  ((triChunks l).flatMap triEdges).foldl toggleStep ∅

/-- The rear-face index transform of `generate_mesh`: for each complete chunk
`[a, _, c]` swap `a` and `c`; a trailing partial chunk is copied unchanged. -/
def revTris : List ℕ → List ℕ
  | a :: b :: c :: rest => c :: b :: a :: revTris rest
  | rest => rest

/-- The side-wall indices of `generate_mesh`:
`flat_map(|(a, b)| [a, b, b+r, a+r, a, b+r])` over the surviving edges. -/
def sideIndices (r : ℕ) (order : List (ℕ × ℕ)) : List ℕ :=
  order.flatMap (fun e => [e.1, e.2, e.2 + r, e.1 + r, e.1, e.2 + r])

/-- Admissible iteration orders of `edge_set.into_keys()`: `std::collections::
HashMap` yields each key exactly once, in an order that is no function of the
program's inputs; the order is therefore an explicit parameter constrained to
be a duplicate-free listing of the key set. -/
def EdgeOrder (l : List ℕ) (order : List (ℕ × ℕ)) : Prop :=
  order.Nodup ∧ order.toFinset = edge_set l

instance (l : List ℕ) (order : List (ℕ × ℕ)) : Decidable (EdgeOrder l order) := by
  unfold EdgeOrder; infer_instance

/-- `MeshGenerator::generate_mesh` from `lib.rs`. External collaborators are
parameters: `height` is `face.height()`; `outlined` is `none` when
`outline_glyph` reports no outline, otherwise the glyph's `Rect` together with
the result of running the lyon fill tessellator on the flattened, scaled path;
`order` is the iteration order of `edge_set.into_keys()` (see `EdgeOrder`).
`v_base` and `i_base` are zero because the vertex buffers start empty. -/
def generate_mesh (height : ℚ) (flat : Bool)
    (outlined : Option (Rect × Except TessellationError TessOutput))
    (order : List (ℕ × ℕ)) : Except Error Mesh :=
  let scale := 1 / height
  match outlined with
  | none => .ok ⟨⟨(0, 0, 0), (0, 0, 0)⟩, [], []⟩
  | some (rect, tessRes) =>
    let z : ℚ := if flat then 0 else 0.5
    let bbox : BoundingBox :=
      ⟨((rect.x_min : ℚ) * scale, (rect.y_min : ℚ) * scale, -z),
       ((rect.x_max : ℚ) * scale, (rect.y_max : ℚ) * scale, z)⟩
    match tessRes with
    | .error e => .error (.Tessellation e)
    | .ok t =>
      let vertices := t.vertices.map (fun p => (p.1, p.2, z))
      let indices := t.indices
      if flat then .ok ⟨bbox, indices, vertices⟩
      else
        let v_rear_base := vertices.length
        let vertices2 := vertices ++ vertices.map (fun v => (v.1, v.2.1, -z))
        let indices2 := indices ++ revTris indices
        let r := v_rear_base
        let indices3 := indices2 ++ sideIndices r order
        .ok ⟨bbox, indices3, vertices2⟩

/-- The boundary-edge toggle applied to an explicit list of triangles
(`generate_mesh` reads them as the complete 3-chunks of the index buffer:
`edge_set l = edge_set_tris (triChunks l)` by definition). -/
def edge_set_tris (L : List (ℕ × ℕ × ℕ)) : Finset (ℕ × ℕ) :=
  (L.flatMap triEdges).foldl toggleStep ∅

/-- Whether the canonicalized edges of a triangle include `k`. -/
def triContains (k : ℕ × ℕ) (tr : ℕ × ℕ × ℕ) : Bool :=
  decide (k ∈ (triEdges tr).map (fun e => canonEdge e.1 e.2))

/-- Modelled from the spec: the error taxonomy of `error.rs`, which is not
under `src/` (only its users in `mesh_generator.rs` are). Per spec §7 the
taxonomy distinguishes the open-contour/malformed-outline failure from a
wrapped triangulation-engine failure. -/
inductive MeshTextError where
  | MalformedOutline
  | GlyphTriangulationError (code : ℕ)
deriving DecidableEq, Repr

namespace MGen

/-- `BoundingBox` from `bounding_box.rs` (glam `Vec3A` corners modelled as
rational triples). -/
structure BoundingBox where
  min : ℚ × ℚ × ℚ
  max : ℚ × ℚ × ℚ
deriving DecidableEq, Repr

/-- `MeshGenerator::make_mesh` from `mesh_generator.rs`. External parts are
parameters: `outlined` is `none` when `font.outline_glyph` reports no outline,
otherwise the glyph `Rect` together with the result of
`raster_to_mesh(&builder.get_glyph_outline(), flat)`. The source initializes
`depth = (0.5, -0.5)` and overwrites it with `(0, 0)` in the no-outline branch,
which also substitutes an all-zero `Rect` and an empty vertex list. -/
def make_mesh (font_height : ℚ) (flat : Bool)
    (outlined : Option (Rect × Except MeshTextError (List (ℚ × ℚ × ℚ)))) :
    Except MeshTextError (List (ℚ × ℚ × ℚ) × BoundingBox) :=
  let res : Except MeshTextError ((ℚ × ℚ) × Rect × List (ℚ × ℚ × ℚ)) :=
    match outlined with
    | some (rect, meshRes) =>
        match meshRes with
        | .ok mesh => .ok ((0.5, -0.5), rect, mesh)
        | .error e => .error e
    | none => .ok ((0, 0), ⟨0, 0, 0, 0⟩, [])
  match res with
  | .error e => .error e
  | .ok (depth, rect, mesh) =>
      let bbox : BoundingBox :=
        if flat then
          ⟨((rect.x_min : ℚ) / font_height, (rect.y_min : ℚ) / font_height, 0),
           ((rect.x_max : ℚ) / font_height, (rect.y_max : ℚ) / font_height, 0)⟩
        else
          ⟨((rect.x_min : ℚ) / font_height, (rect.y_min : ℚ) / font_height, depth.2),
           ((rect.x_max : ℚ) / font_height, (rect.y_max : ℚ) / font_height, depth.1)⟩
      .ok (mesh, bbox)

end MGen

/-- Modelled from the spec: the Triangulation Adapter (`raster_to_mesh` in
`util.rs`) is not under `src/`; only its caller `mesh_generator.rs` is. Per
spec §4.2 the adapter derives each contour's ordered edge chain as consecutive
index pairs. -/
def contourEdgeChain (c : List ℕ) : List (ℕ × ℕ) := c.zip (c.drop 1)

/-- Modelled from the spec: a contour's edge chain is closed when the first
point of the chain equals the successor target of its last edge (spec §4.2). -/
def contourClosed (c : List ℕ) : Bool :=
  match c.head?, (contourEdgeChain c).getLast? with
  | some f, some e => f == e.2
  | _, _ => false

/-- Modelled from the spec: `raster_to_mesh` (the Triangulation Adapter of
spec §4.2, in the missing `util.rs`), parameterized by the external
triangulation engine. It must verify, before delegating, that every contour's
edge chain is closed; if not it fails with the `MalformedOutline` error
without calling the engine; otherwise it hands the engine the full point set
and the concatenated edge list, wrapping an engine failure unchanged. -/
def raster_to_mesh
    (triangulate : List Point → List (ℕ × ℕ) → Except ℕ (List (ℕ × ℕ × ℕ)))
    (o : Outline) : Except MeshTextError (List (ℕ × ℕ × ℕ)) :=
  if o.contours.all contourClosed then
    match triangulate o.points (o.contours.flatMap contourEdgeChain) with
    | .ok tris => .ok tris
    | .error e => .error (.GlyphTriangulationError e)
  else .error .MalformedOutline

instance {ε α : Type} [DecidableEq ε] [DecidableEq α] :
    DecidableEq (Except ε α) := fun a b =>
  match a, b with
  | .ok x, .ok y => decidable_of_iff (x = y) (by simp)
  | .error x, .error y => decidable_of_iff (x = y) (by simp)
  | .ok _, .error _ => isFalse (by simp)
  | .error _, .ok _ => isFalse (by simp)

/-- C1 counterexample: after moveTo(0,0), lineTo(1,0), lineTo(1,1), lineTo(0,1)
the last appended point (0,1) differs from the contour's first point (0,0), yet
`close()` still removes it, so the claim that `close()` discards the last
appended point only when it coincides with the first point is false. -/
theorem close_removes_noncoincident_last_point :
    let b := ((((OutlineBuilder.new 1 ⟨5, 3⟩).move_to 0 0).line_to 1 0).line_to 1 1).line_to 0 1
    b.current_contour.head? = some 0 ∧
    b.points.head? = some (0, 0) ∧
    b.points.getLast? = some (0, 1) ∧
    ((0 : ℚ), (1 : ℚ)) ≠ ((0 : ℚ), (0 : ℚ)) ∧
    (b.close).map OutlineBuilder.points = some [(0, 0), (1, 0), (1, 1)] ∧
    (b.close).map (fun x => x.points.length) ≠ some b.points.length := by
  refine ⟨?_, ?_, ?_, ?_, ?_, ?_⟩ <;>
    norm_num [OutlineBuilder.new, OutlineBuilder.move_to, OutlineBuilder.line_to,
      OutlineBuilder.add_segment, OutlineBuilder.close]

/-- C1 amended: `close()` unconditionally discards the last appended point and
the last contour index, whether or not that point coincides with the contour's
first point; it then appends the first index and seals the contour. -/
theorem close_always_discards_last_point (b b' : OutlineBuilder)
    (h : b.close = some b') :
    b'.points = b.points.dropLast ∧
    b'.current_contour = [] ∧
    b'.contours = b.contours ++
      [b.current_contour.dropLast ++ [b.current_contour.dropLast.headI]] := by
  unfold OutlineBuilder.close at h
  cases hcc : b.current_contour.dropLast with
  | nil => rw [hcc] at h; exact absurd h (by simp)
  | cons i0 rest =>
      rw [hcc] at h
      have h' := Option.some.inj h
      subst h'
      simp

/-- Witness for the amended C1 theorem at the square contour state. -/
theorem close_always_discards_last_point_witness :
    (OutlineBuilder.mk 1 ⟨5, 3⟩ [] [0, 1, 2, 3] [(0, 0), (1, 0), (1, 1), (0, 1)] (0, 1)).close
        = some (OutlineBuilder.mk 1 ⟨5, 3⟩ [[0, 1, 2, 0]] [] [(0, 0), (1, 0), (1, 1)] (0, 1)) ∧
    ((OutlineBuilder.mk 1 ⟨5, 3⟩ [[0, 1, 2, 0]] [] [(0, 0), (1, 0), (1, 1)] (0, 1)).points
        = (OutlineBuilder.mk 1 ⟨5, 3⟩ [] [0, 1, 2, 3]
            [(0, 0), (1, 0), (1, 1), (0, 1)] (0, 1)).points.dropLast ∧
     (OutlineBuilder.mk 1 ⟨5, 3⟩ [[0, 1, 2, 0]] [] [(0, 0), (1, 0), (1, 1)] (0, 1)).current_contour
        = [] ∧
     (OutlineBuilder.mk 1 ⟨5, 3⟩ [[0, 1, 2, 0]] [] [(0, 0), (1, 0), (1, 1)] (0, 1)).contours
        = (OutlineBuilder.mk 1 ⟨5, 3⟩ [] [0, 1, 2, 3]
            [(0, 0), (1, 0), (1, 1), (0, 1)] (0, 1)).contours ++
          [(OutlineBuilder.mk 1 ⟨5, 3⟩ [] [0, 1, 2, 3]
              [(0, 0), (1, 0), (1, 1), (0, 1)] (0, 1)).current_contour.dropLast ++
            [(OutlineBuilder.mk 1 ⟨5, 3⟩ [] [0, 1, 2, 3]
                [(0, 0), (1, 0), (1, 1), (0, 1)] (0, 1)).current_contour.dropLast.headI]]) :=
  ⟨by simp [OutlineBuilder.close], close_always_discards_last_point _ _
    (by simp [OutlineBuilder.close])⟩

/-- C2 counterexample: the Outline produced by the Builder for a square contour
closed with a redundant final point seals the contour as `[0, 1, 2, 0]`: the
first index is stored again as the trailing entry and hence occurs twice. -/
theorem sealed_contour_repeats_first_index :
    ((OutlineBuilder.new 1 ⟨5, 3⟩).run
        [.move 0 0, .line 1 0, .line 1 1, .line 0 1, .line 0 0, .close]).map
      (fun b => b.into_outline.contours) = some [[0, 1, 2, 3, 0]] ∧
    ([0, 1, 2, 3, 0] : List ℕ).count 0 = 2 ∧
    ([0, 1, 2, 3, 0] : List ℕ).getLast? = ([0, 1, 2, 3, 0] : List ℕ).head? := by
  refine ⟨?_, by decide, by decide⟩
  simp [OutlineBuilder.run, OutlineBuilder.step, OutlineBuilder.new, OutlineBuilder.move_to,
    OutlineBuilder.line_to, OutlineBuilder.add_segment, OutlineBuilder.close,
    OutlineBuilder.into_outline]

lemma BuilderInv.add_segment {b : OutlineBuilder} (h : BuilderInv b) (p : Point) :
    BuilderInv (b.add_segment p) := by
  refine ⟨?_, ?_, ?_⟩
  · intro i hi
    simp only [OutlineBuilder.add_segment, List.mem_append, List.mem_singleton,
      List.length_append, List.length_singleton] at hi ⊢
    rcases hi with hi | hi
    · have := h.cc_lt i hi; omega
    · omega
  · simp only [OutlineBuilder.add_segment]
    rw [List.pairwise_append]
    exact ⟨h.cc_pair, by simp, by intro a ha b2 hb2; simp at hb2; subst hb2; exact h.cc_lt a ha⟩
  · simpa only [OutlineBuilder.add_segment] using h.shape

lemma BuilderInv.line_to {b : OutlineBuilder} (h : BuilderInv b) (x y : ℚ) :
    BuilderInv (b.line_to x y) :=
  h.add_segment (x, y)

lemma BuilderInv.foldl {f : OutlineBuilder → ℕ → OutlineBuilder}
    (hf : ∀ acc i, BuilderInv acc → BuilderInv (f acc i)) :
    ∀ (l : List ℕ) (b : OutlineBuilder), BuilderInv b → BuilderInv (l.foldl f b)
  | [], _, h => h
  | x :: xs, b, h => BuilderInv.foldl hf xs (f b x) (hf b x h)

lemma BuilderInv.quad_to {b : OutlineBuilder} (h : BuilderInv b) (p1 p2 : Point) :
    BuilderInv (b.quad_to p1 p2) :=
  BuilderInv.foldl (fun _ _ hacc => hacc.line_to _ _) _ b h

lemma BuilderInv.curve_to {b : OutlineBuilder} (h : BuilderInv b) (p1 p2 p3 : Point) :
    BuilderInv (b.curve_to p1 p2 p3) :=
  BuilderInv.foldl (fun _ _ hacc => hacc.line_to _ _) _ b h

lemma BuilderInv.close {b b' : OutlineBuilder} (h : BuilderInv b)
    (hc : b.close = some b') : BuilderInv b' := by
  unfold OutlineBuilder.close at hc
  cases hcc : b.current_contour.dropLast with
  | nil => rw [hcc] at hc; exact absurd hc (by simp)
  | cons i0 rest =>
      rw [hcc] at hc
      have h' := Option.some.inj hc
      subst h'
      refine ⟨by simp, by simp, ?_⟩
      intro c hc2
      simp only [List.mem_append, List.mem_singleton] at hc2
      rcases hc2 with hc2 | hc2
      · exact h.shape c hc2
      · subst hc2
        refine ⟨i0 :: rest, by simp, ?_, by simp⟩
        have hsub : (i0 :: rest).Pairwise (· < ·) := by
          rw [← hcc]
          exact List.Pairwise.sublist (List.dropLast_sublist _) h.cc_pair
        exact hsub.imp Nat.ne_of_lt

lemma BuilderInv.step {b b' : OutlineBuilder} (h : BuilderInv b) {c : Command}
    (hc : b.step c = some b') : BuilderInv b' := by
  cases c with
  | move x y => exact (Option.some.inj hc) ▸ h.add_segment (x, y)
  | line x y => exact (Option.some.inj hc) ▸ h.add_segment (x, y)
  | quad x1 y1 x2 y2 => exact (Option.some.inj hc) ▸ h.quad_to (x1, y1) (x2, y2)
  | cubic x1 y1 x2 y2 x3 y3 =>
      exact (Option.some.inj hc) ▸ h.curve_to (x1, y1) (x2, y2) (x3, y3)
  | close => exact h.close hc

lemma BuilderInv.run : ∀ (cs : List Command) {b b' : OutlineBuilder},
    BuilderInv b → b.run cs = some b' → BuilderInv b'
  | [], _, _, h, hr => (Option.some.inj hr) ▸ h
  | c :: cs, b, b', h, hr => by
      rw [OutlineBuilder.run] at hr
      cases hs : b.step c with
      | none => rw [hs] at hr; exact absurd hr (by simp)
      | some b2 =>
          rw [hs] at hr
          exact BuilderInv.run cs (h.step hs) hr

/-- C2 amended: in every Outline produced by running the Builder on a command
stream, each sealed contour stores its first point index twice — once at the
front and once as the trailing entry (the closing edge is recorded explicitly)
— while the remaining entries are duplicate-free. -/
theorem sealed_contours_shape (fh : ℚ) (qs : QualitySettings) (cs : List Command)
    (b : OutlineBuilder) (hrun : (OutlineBuilder.new fh qs).run cs = some b)
    (c : List ℕ) (hc : c ∈ b.into_outline.contours) :
    c ≠ [] ∧ c.getLast? = c.head? ∧ c.dropLast.Nodup := by
  have hinv : BuilderInv (OutlineBuilder.new fh qs) :=
    ⟨by simp [OutlineBuilder.new], by simp [OutlineBuilder.new], by simp [OutlineBuilder.new]⟩
  obtain ⟨l, hne, hnd, hceq⟩ := (BuilderInv.run cs hinv hrun).shape c hc
  subst hceq
  match l, hne with
  | a :: as, _ =>
      refine ⟨by simp, ?_, ?_⟩
      · rw [List.getLast?_concat]
        simp [List.headI]
      · rw [List.dropLast_concat]
        exact hnd

/-- Witness for the amended C2 theorem at the redundantly closed square. -/
theorem sealed_contours_shape_witness :
    ([0, 1, 2, 3, 0] : List ℕ) ≠ [] ∧
    ([0, 1, 2, 3, 0] : List ℕ).getLast? = ([0, 1, 2, 3, 0] : List ℕ).head? ∧
    ([0, 1, 2, 3, 0] : List ℕ).dropLast.Nodup :=
  sealed_contours_shape 1 ⟨5, 3⟩
    [.move 0 0, .line 1 0, .line 1 1, .line 0 1, .line 0 0, .close]
    (OutlineBuilder.mk 1 ⟨5, 3⟩ [[0, 1, 2, 3, 0]] [] [(0, 0), (1, 0), (1, 1), (0, 1)] (0, 0))
    (by simp [OutlineBuilder.run, OutlineBuilder.step, OutlineBuilder.new,
      OutlineBuilder.move_to, OutlineBuilder.line_to, OutlineBuilder.add_segment,
      OutlineBuilder.close])
    [0, 1, 2, 3, 0] (by decide)

lemma quadStep_foldl_range (p1 p2 : Point) (n : ℕ) (b : OutlineBuilder) : ∀ m : ℕ,
    (List.range m).foldl (quadStep p1 p2 n) b =
      { b with
          current_point := quadPoint p1 p2 n b.current_point m
          current_contour := b.current_contour ++ (List.range m).map (b.points.length + ·)
          points := b.points ++ (List.range m).map (fun k =>
            ((quadPoint p1 p2 n b.current_point (k + 1)).1 / b.font_height,
             (quadPoint p1 p2 n b.current_point (k + 1)).2 / b.font_height)) }
  | 0 => by simp [quadPoint]
  | m + 1 => by
      rw [List.range_succ, List.foldl_append, quadStep_foldl_range p1 p2 n b m]
      simp only [List.foldl_cons, List.foldl_nil, quadStep, OutlineBuilder.line_to,
        OutlineBuilder.add_segment, quadPoint, List.range_succ, List.map_append,
        List.map_cons, List.map_nil, List.length_append, List.length_map,
        List.length_range, List.append_assoc]

/-- C7 counterexample: with `quadSteps = 4`, current point (0,0), control (4,0)
and end (4,4), the point appended at step 2 is (55/16, 17/16), not the
claimed de Casteljau evaluation of the Bézier {(0,0), (4,0), (4,4)} at
t = 2/4, which is (3, 1): `line_to` inside the loop moves `current_point`, so
later steps evaluate a different curve. -/
theorem quad_to_control_drift :
    let b := ((OutlineBuilder.new 1 ⟨4, 3⟩).move_to 0 0).quad_to (4, 0) (4, 4)
    b.points.length = 5 ∧
    b.points.getD 2 (0, 0) = (55 / 16, 17 / 16) ∧
    point_on_quad (0, 0) (4, 0) (4, 4) (2 / 4) = (3, 1) ∧
    b.points.getD 2 (0, 0) ≠ point_on_quad (0, 0) (4, 0) (4, 4) (2 / 4) := by
  refine ⟨?_, ?_, ?_, ?_⟩ <;>
    norm_num [OutlineBuilder.new, OutlineBuilder.move_to, OutlineBuilder.line_to,
      OutlineBuilder.add_segment, OutlineBuilder.quad_to, quadStep, point_on_quad,
      lerp_points, List.range_succ]

/-- C7 amended: `quadraticTo(ctrl, end)` appends exactly
`quad_interpolation_steps` points, but the point appended at step `k` is the
degree-2 de Casteljau evaluation at `t = k/quadSteps` of the Bézier whose
start point is the point appended at step `k − 1` (the pre-command current
point for `k = 1`), not of the fixed Bézier `{p0, ctrl, end}`; the start point
itself is never re-appended. Appended points are stored divided by the font
height, as everywhere in the builder. -/
theorem quad_to_recurrence (b : OutlineBuilder) (p1 p2 : Point) :
    (b.quad_to p1 p2).points
        = b.points ++ (List.range b.quality.quad_interpolation_steps).map (fun k =>
            ((quadPoint p1 p2 b.quality.quad_interpolation_steps b.current_point (k + 1)).1
                / b.font_height,
             (quadPoint p1 p2 b.quality.quad_interpolation_steps b.current_point (k + 1)).2
                / b.font_height)) ∧
    (b.quad_to p1 p2).points.length
        = b.points.length + b.quality.quad_interpolation_steps ∧
    (b.quad_to p1 p2).current_point
        = quadPoint p1 p2 b.quality.quad_interpolation_steps b.current_point
            b.quality.quad_interpolation_steps := by
  unfold OutlineBuilder.quad_to
  rw [quadStep_foldl_range p1 p2 b.quality.quad_interpolation_steps b
    b.quality.quad_interpolation_steps]
  refine ⟨rfl, by simp, rfl⟩

lemma mem_toggleStep {s : Finset (ℕ × ℕ)} {e k : ℕ × ℕ} :
    k ∈ toggleStep s e ↔ (if canonEdge e.1 e.2 = k then k ∉ s else k ∈ s) := by
  unfold toggleStep
  by_cases hk : canonEdge e.1 e.2 = k
  · rw [if_pos hk]
    by_cases hs : canonEdge e.1 e.2 ∈ s
    · rw [if_pos hs]; subst hk; simp [Finset.mem_erase, hs]
    · rw [if_neg hs]; subst hk; simp [Finset.mem_insert, hs]
  · rw [if_neg hk]
    by_cases hs : canonEdge e.1 e.2 ∈ s
    · rw [if_pos hs]
      simp only [Finset.mem_erase]
      exact ⟨fun h => h.2, fun h => ⟨fun he => hk he.symm, h⟩⟩
    · rw [if_neg hs]
      simp only [Finset.mem_insert]
      exact ⟨fun h => h.elim (fun he => absurd he.symm hk) id, fun h => Or.inr h⟩

lemma mem_foldl_toggleStep (k : ℕ × ℕ) :
    ∀ (el : List (ℕ × ℕ)) (s : Finset (ℕ × ℕ)),
      (k ∈ el.foldl toggleStep s ↔
        ((k ∈ s) ↔ (el.map (fun e => canonEdge e.1 e.2)).count k % 2 = 0))
  | [], s => by simp
  | e :: rest, s => by
      rw [List.foldl_cons, mem_foldl_toggleStep k rest (toggleStep s e),
        List.map_cons, List.count_cons, mem_toggleStep]
      by_cases hk : canonEdge e.1 e.2 = k
      · rw [if_pos hk]
        subst hk
        simp only [beq_self_eq_true, if_true]
        have h2 : ∀ c : ℕ, (c + 1) % 2 = 0 ↔ ¬(c % 2 = 0) := by omega
        rw [h2]
        tauto
      · rw [if_neg hk]
        have hb : (canonEdge e.1 e.2 == k) = false := beq_eq_false_iff_ne.mpr hk
        simp [hb]

lemma mem_edge_set_tris {L : List (ℕ × ℕ × ℕ)} {k : ℕ × ℕ} :
    k ∈ edge_set_tris L ↔
      ((L.flatMap triEdges).map (fun e => canonEdge e.1 e.2)).count k % 2 = 1 := by
  unfold edge_set_tris
  rw [mem_foldl_toggleStep]
  simp only [Finset.not_mem_empty, false_iff]
  omega

/-- Unordered-pair equality of canonical edge keys. -/
lemma canonEdge_eq_iff {a b a2 b2 : ℕ} :
    canonEdge a b = canonEdge a2 b2 ↔ (a = a2 ∧ b = b2) ∨ (a = b2 ∧ b = a2) := by
  unfold canonEdge
  split_ifs <;> simp [Prod.ext_iff] <;> omega

lemma count_triEdges_distinct (k : ℕ × ℕ) (tr : ℕ × ℕ × ℕ)
    (h : tr.1 ≠ tr.2.1 ∧ tr.2.1 ≠ tr.2.2 ∧ tr.2.2 ≠ tr.1) :
    ((triEdges tr).map (fun e => canonEdge e.1 e.2)).count k
      = if triContains k tr then 1 else 0 := by
  obtain ⟨a, b, c⟩ := tr
  obtain ⟨h1, h2, h3⟩ := h
  simp only at h1 h2 h3
  have d12 : canonEdge a b ≠ canonEdge b c := by
    intro hh; rw [canonEdge_eq_iff] at hh; rcases hh with ⟨u, v⟩ | ⟨u, v⟩ <;> omega
  have d23 : canonEdge b c ≠ canonEdge c a := by
    intro hh; rw [canonEdge_eq_iff] at hh; rcases hh with ⟨u, v⟩ | ⟨u, v⟩ <;> omega
  have d13 : canonEdge a b ≠ canonEdge c a := by
    intro hh; rw [canonEdge_eq_iff] at hh; rcases hh with ⟨u, v⟩ | ⟨u, v⟩ <;> omega
  simp only [triContains, triEdges, List.map_cons, List.map_nil]
  by_cases hx : canonEdge a b = k
  · have hy : canonEdge b c ≠ k := fun hh => d12 (hx.trans hh.symm)
    have hz : canonEdge c a ≠ k := fun hh => d13 (hx.trans hh.symm)
    simp [List.count_cons, hx, hy, hz]
  · by_cases hy : canonEdge b c = k
    · have hz : canonEdge c a ≠ k := fun hh => d23 (hy.trans hh.symm)
      simp [List.count_cons, hx, hy, hz]
    · by_cases hz : canonEdge c a = k
      · simp [List.count_cons, hx, hy, hz]
      · have hx' : k ≠ canonEdge a b := fun hh => hx hh.symm
        have hy' : k ≠ canonEdge b c := fun hh => hy hh.symm
        have hz' : k ≠ canonEdge c a := fun hh => hz hh.symm
        simp [List.count_cons, hx', hy', hz']

lemma count_flatMap_triEdges (k : ℕ × ℕ) : ∀ L : List (ℕ × ℕ × ℕ),
    (∀ tr ∈ L, tr.1 ≠ tr.2.1 ∧ tr.2.1 ≠ tr.2.2 ∧ tr.2.2 ≠ tr.1) →
    ((L.flatMap triEdges).map (fun e => canonEdge e.1 e.2)).count k
      = L.countP (triContains k)
  | [], _ => by simp
  | tr :: L, h => by
      rw [List.flatMap_cons, List.map_append, List.count_append, List.countP_cons,
        count_flatMap_triEdges k L (fun t ht => h t (List.mem_cons_of_mem _ ht)),
        count_triEdges_distinct k tr (h tr (List.mem_cons_self _ _)), Nat.add_comm]

lemma count_pair_perm : ∀ {l1 l2 : List (ℕ × ℕ)}, l1.Perm l2 → ∀ k, l1.count k = l2.count k := by
  intro l1 l2 h
  induction h with
  | nil => intro k; rfl
  | cons x p ih => intro k; rw [List.count_cons, List.count_cons, ih]
  | swap x y l =>
      intro k
      rw [List.count_cons, List.count_cons, List.count_cons, List.count_cons]
      omega
  | trans p q ih1 ih2 => intro k; rw [ih1, ih2]

lemma edge_set_tris_perm {L L' : List (ℕ × ℕ × ℕ)} (h : L.Perm L') :
    edge_set_tris L = edge_set_tris L' := by
  ext k
  rw [mem_edge_set_tris, mem_edge_set_tris,
    count_pair_perm (List.Perm.map _ (List.Perm.flatMap_right triEdges h)) k]

/-- C6 counterexample: for the degenerate triangle list `[(0, 1, 0)]` the edge
(0,1) occurs in an odd number (one) of the triangles, yet it does not survive
the toggle, because inside that single triangle it occurs twice among the
canonicalized edges and so cancels itself; the claim that the surviving set
equals the set of edges occurring in an odd number of triangles is false. -/
theorem toggle_degenerate_triangle :
    edge_set_tris [(0, 1, 0)] = {(0, 0)} ∧
    (0, 1) ∉ edge_set_tris [(0, 1, 0)] ∧
    ([((0 : ℕ), (1 : ℕ), (0 : ℕ))].countP (triContains (0, 1))) % 2 = 1 := by
  refine ⟨?_, ?_, ?_⟩ <;> decide

/-- C6 amended: the edge set surviving the toggle equals exactly the set of
canonicalized edges occurring an odd number of times among the edges of all
triangles; it is invariant under any permutation of the triangle visitation
order; and whenever every triangle has three pairwise-distinct corners (as in
any non-degenerate triangulation) the surviving set is exactly the set of
edges occurring in an odd number of triangles. -/
theorem toggle_parity_characterization (L : List (ℕ × ℕ × ℕ)) :
    (∀ k, k ∈ edge_set_tris L ↔
      ((L.flatMap triEdges).map (fun e => canonEdge e.1 e.2)).count k % 2 = 1) ∧
    (∀ L', L.Perm L' → edge_set_tris L = edge_set_tris L') ∧
    ((∀ tr ∈ L, tr.1 ≠ tr.2.1 ∧ tr.2.1 ≠ tr.2.2 ∧ tr.2.2 ≠ tr.1) →
      ∀ k, (k ∈ edge_set_tris L ↔ L.countP (triContains k) % 2 = 1)) := by
  refine ⟨fun k => mem_edge_set_tris, fun L' h => edge_set_tris_perm h, fun hd k => ?_⟩
  rw [mem_edge_set_tris, count_flatMap_triEdges k L hd]

/-- Witness for the amended C6 theorem on the square's two front triangles. -/
theorem toggle_parity_characterization_witness :
    edge_set_tris [(0, 1, 2), (0, 2, 3)] = edge_set_tris [(0, 2, 3), (0, 1, 2)] ∧
    ((0, 1) ∈ edge_set_tris [(0, 1, 2), (0, 2, 3)] ↔
      ([((0 : ℕ), (1 : ℕ), (2 : ℕ)), (0, 2, 3)].countP (triContains (0, 1))) % 2 = 1) :=
  ⟨(toggle_parity_characterization [(0, 1, 2), (0, 2, 3)]).2.1 _ (by decide),
   (toggle_parity_characterization [(0, 1, 2), (0, 2, 3)]).2.2 (by decide) (0, 1)⟩

lemma generate_mesh_extruded (height : ℚ) (rect : Rect) (t : TessOutput)
    (order : List (ℕ × ℕ)) :
    generate_mesh height false (some (rect, .ok t)) order =
      .ok ⟨⟨((rect.x_min : ℚ) * (1 / height), (rect.y_min : ℚ) * (1 / height), -(0.5 : ℚ)),
           ((rect.x_max : ℚ) * (1 / height), (rect.y_max : ℚ) * (1 / height), (0.5 : ℚ))⟩,
          t.indices ++ revTris t.indices ++
            sideIndices (t.vertices.map (fun p => (p.1, p.2, (0.5 : ℚ)))).length order,
          (t.vertices.map (fun p => (p.1, p.2, (0.5 : ℚ)))) ++
            (t.vertices.map (fun p => (p.1, p.2, (0.5 : ℚ)))).map
              (fun v => (v.1, v.2.1, -(0.5 : ℚ)))⟩ := rfl

lemma generate_mesh_flat (height : ℚ) (rect : Rect) (t : TessOutput)
    (order : List (ℕ × ℕ)) :
    generate_mesh height true (some (rect, .ok t)) order =
      .ok ⟨⟨((rect.x_min : ℚ) * (1 / height), (rect.y_min : ℚ) * (1 / height), -(0 : ℚ)),
           ((rect.x_max : ℚ) * (1 / height), (rect.y_max : ℚ) * (1 / height), (0 : ℚ))⟩,
          t.indices,
          t.vertices.map (fun p => (p.1, p.2, (0 : ℚ)))⟩ := rfl

lemma revTris_length : ∀ l : List ℕ, (revTris l).length = l.length
  | a :: b :: c :: rest => by
      rw [revTris]
      simp [revTris_length rest]
  | [] => rfl
  | [_] => rfl
  | [_, _] => rfl

lemma revTris_mem : ∀ {l : List ℕ} {i : ℕ}, i ∈ revTris l → i ∈ l
  | a :: b :: c :: rest, i, h => by
      rw [revTris] at h
      simp only [List.mem_cons] at h ⊢
      rcases h with h | h | h | h
      · exact Or.inr (Or.inr (Or.inl h))
      · exact Or.inr (Or.inl h)
      · exact Or.inl h
      · exact Or.inr (Or.inr (Or.inr (revTris_mem h)))
  | [], _, h => h
  | [_], _, h => h
  | [_, _], _, h => h

lemma sideIndices_length (r : ℕ) : ∀ o : List (ℕ × ℕ), (sideIndices r o).length = 6 * o.length
  | [] => rfl
  | e :: o => by
      have ih := sideIndices_length r o
      unfold sideIndices at ih ⊢
      rw [List.flatMap_cons, List.length_append, ih]
      simp
      omega

lemma triChunks_revTris : ∀ l : List ℕ,
    triChunks (revTris l) = (triChunks l).map (fun tr => (tr.2.2, tr.2.1, tr.1))
  | [] => rfl
  | [_] => rfl
  | [_, _] => rfl
  | a :: b :: c :: rest => by
      rw [revTris, triChunks, triChunks, List.map_cons, triChunks_revTris rest]

lemma triChunks_mem : ∀ (l : List ℕ) (tr : ℕ × ℕ × ℕ), tr ∈ triChunks l →
    tr.1 ∈ l ∧ tr.2.1 ∈ l ∧ tr.2.2 ∈ l
  | a :: b :: c :: rest, tr, h => by
      rw [triChunks] at h
      rcases List.mem_cons.mp h with h | h
      · subst h
        exact ⟨by simp, by simp, by simp⟩
      · obtain ⟨h1, h2, h3⟩ := triChunks_mem rest tr h
        refine ⟨?_, ?_, ?_⟩ <;> simp only [List.mem_cons] <;> tauto
  | [], tr, h => by simp [triChunks] at h
  | [_], tr, h => by simp [triChunks] at h
  | [_, _], tr, h => by simp [triChunks] at h

/-- Every endpoint of an edge surviving the toggle occurs in the index list. -/
lemma edge_set_mem_le {l : List ℕ} {a b : ℕ} (h : (a, b) ∈ edge_set l) :
    a ∈ l ∧ b ∈ l := by
  have hcount := mem_edge_set_tris.mp h
  have hpos : 0 < (((triChunks l).flatMap triEdges).map
      (fun e => canonEdge e.1 e.2)).count (a, b) := by omega
  have hmem := List.count_pos_iff.mp hpos
  obtain ⟨e, he, hce⟩ := List.mem_map.mp hmem
  obtain ⟨tr, htr, het⟩ := List.mem_flatMap.mp he
  obtain ⟨m1, m2, m3⟩ := triChunks_mem l tr htr
  have hcomp : (e.1 = a ∧ e.2 = b) ∨ (e.1 = b ∧ e.2 = a) := by
    unfold canonEdge at hce
    split_ifs at hce <;> simp [Prod.ext_iff] at hce <;> tauto
  have hem : e.1 ∈ l ∧ e.2 ∈ l := by
    simp only [triEdges, List.mem_cons, List.not_mem_nil, or_false] at het
    rcases het with het | het | het <;> subst het <;> exact ⟨by assumption, by assumption⟩
  rcases hcomp with ⟨h1, h2⟩ | ⟨h1, h2⟩
  · exact ⟨h1 ▸ hem.1, h2 ▸ hem.2⟩
  · exact ⟨h2 ▸ hem.2, h1 ▸ hem.1⟩

/-- C3 counterexample: for the unit square's tessellation, two admissible
iteration orders of the boundary-edge `HashMap` yield different index buffers
from `generate_mesh` with identical glyph inputs, flat flag and quality
settings, so the output is not bit-identical across invocations. -/
theorem generate_mesh_side_order_dependent :
    EdgeOrder [0, 1, 2, 0, 2, 3] [(0, 1), (1, 2), (2, 3), (0, 3)] ∧
    EdgeOrder [0, 1, 2, 0, 2, 3] [(1, 2), (0, 1), (2, 3), (0, 3)] ∧
    (generate_mesh 1 false (some (⟨0, 0, 1, 1⟩,
        .ok ⟨[(0, 0), (1, 0), (1, 1), (0, 1)], [0, 1, 2, 0, 2, 3]⟩))
        [(0, 1), (1, 2), (2, 3), (0, 3)]).map Mesh.indices
      ≠ (generate_mesh 1 false (some (⟨0, 0, 1, 1⟩,
        .ok ⟨[(0, 0), (1, 0), (1, 1), (0, 1)], [0, 1, 2, 0, 2, 3]⟩))
        [(1, 2), (0, 1), (2, 3), (0, 3)]).map Mesh.indices := by
  refine ⟨?_, ?_, ?_⟩ <;> decide

/-- C3 amended: `generate_mesh` is deterministic up to the side-wall emission
order: with identical inputs, any two admissible boundary-map iteration orders
produce identical vertex buffers and bounding boxes and index buffers that are
permutations of each other; in flat mode, and in the no-outline and
tessellation-error cases, the result is bit-identical. -/
theorem generate_mesh_deterministic_up_to_side_order (height : ℚ) (flat : Bool)
    (rect : Rect) (t : TessOutput) (o1 o2 : List (ℕ × ℕ))
    (h1 : EdgeOrder t.indices o1) (h2 : EdgeOrder t.indices o2) :
    ((generate_mesh height flat (some (rect, .ok t)) o1).map Mesh.vertices
        = (generate_mesh height flat (some (rect, .ok t)) o2).map Mesh.vertices) ∧
    ((generate_mesh height flat (some (rect, .ok t)) o1).map Mesh.bbox
        = (generate_mesh height flat (some (rect, .ok t)) o2).map Mesh.bbox) ∧
    (∀ m1 m2, generate_mesh height flat (some (rect, .ok t)) o1 = .ok m1 →
        generate_mesh height flat (some (rect, .ok t)) o2 = .ok m2 →
        m1.indices.Perm m2.indices) ∧
    (flat = true →
      generate_mesh height flat (some (rect, .ok t)) o1
        = generate_mesh height flat (some (rect, .ok t)) o2) ∧
    (generate_mesh height flat none o1 = generate_mesh height flat none o2) ∧
    (∀ e, generate_mesh height flat (some (rect, .error e)) o1
        = generate_mesh height flat (some (rect, .error e)) o2) := by
  have hperm : o1.Perm o2 :=
    List.perm_of_nodup_nodup_toFinset_eq h1.1 h2.1 (h1.2.trans h2.2.symm)
  cases flat
  · refine ⟨by rw [generate_mesh_extruded, generate_mesh_extruded]; rfl,
      by rw [generate_mesh_extruded, generate_mesh_extruded]; rfl, ?_,
      fun h => absurd h (by simp), rfl, fun e => rfl⟩
    intro m1 m2 e1 e2
    rw [generate_mesh_extruded] at e1 e2
    rw [← Except.ok.inj e1, ← Except.ok.inj e2]
    exact List.Perm.append_left _ (List.Perm.flatMap_right _ hperm)
  · refine ⟨rfl, rfl, ?_, fun _ => rfl, rfl, fun e => rfl⟩
    intro m1 m2 e1 e2
    rw [generate_mesh_flat] at e1 e2
    rw [← Except.ok.inj e1, ← Except.ok.inj e2]

/-- Witness for the amended C3 theorem at the unit-square tessellation. -/
theorem generate_mesh_deterministic_up_to_side_order_witness :
    EdgeOrder [0, 1, 2, 0, 2, 3] [(0, 1), (1, 2), (2, 3), (0, 3)] ∧
    EdgeOrder [0, 1, 2, 0, 2, 3] [(2, 3), (0, 3), (0, 1), (1, 2)] ∧
    (((generate_mesh 1 false (some (⟨0, 0, 1, 1⟩,
          .ok ⟨[(0, 0), (1, 0), (1, 1), (0, 1)], [0, 1, 2, 0, 2, 3]⟩))
          [(0, 1), (1, 2), (2, 3), (0, 3)]).map Mesh.vertices
        = (generate_mesh 1 false (some (⟨0, 0, 1, 1⟩,
          .ok ⟨[(0, 0), (1, 0), (1, 1), (0, 1)], [0, 1, 2, 0, 2, 3]⟩))
          [(2, 3), (0, 3), (0, 1), (1, 2)]).map Mesh.vertices) ∧
     ((generate_mesh 1 false (some (⟨0, 0, 1, 1⟩,
          .ok ⟨[(0, 0), (1, 0), (1, 1), (0, 1)], [0, 1, 2, 0, 2, 3]⟩))
          [(0, 1), (1, 2), (2, 3), (0, 3)]).map Mesh.bbox
        = (generate_mesh 1 false (some (⟨0, 0, 1, 1⟩,
          .ok ⟨[(0, 0), (1, 0), (1, 1), (0, 1)], [0, 1, 2, 0, 2, 3]⟩))
          [(2, 3), (0, 3), (0, 1), (1, 2)]).map Mesh.bbox) ∧
     (∀ m1 m2, generate_mesh 1 false (some (⟨0, 0, 1, 1⟩,
          .ok ⟨[(0, 0), (1, 0), (1, 1), (0, 1)], [0, 1, 2, 0, 2, 3]⟩))
          [(0, 1), (1, 2), (2, 3), (0, 3)] = .ok m1 →
        generate_mesh 1 false (some (⟨0, 0, 1, 1⟩,
          .ok ⟨[(0, 0), (1, 0), (1, 1), (0, 1)], [0, 1, 2, 0, 2, 3]⟩))
          [(2, 3), (0, 3), (0, 1), (1, 2)] = .ok m2 →
        m1.indices.Perm m2.indices) ∧
     (false = true →
        generate_mesh 1 false (some (⟨0, 0, 1, 1⟩,
          .ok ⟨[(0, 0), (1, 0), (1, 1), (0, 1)], [0, 1, 2, 0, 2, 3]⟩))
          [(0, 1), (1, 2), (2, 3), (0, 3)]
          = generate_mesh 1 false (some (⟨0, 0, 1, 1⟩,
              .ok ⟨[(0, 0), (1, 0), (1, 1), (0, 1)], [0, 1, 2, 0, 2, 3]⟩))
              [(2, 3), (0, 3), (0, 1), (1, 2)]) ∧
     (generate_mesh 1 false none [(0, 1), (1, 2), (2, 3), (0, 3)]
        = generate_mesh 1 false none [(2, 3), (0, 3), (0, 1), (1, 2)]) ∧
     (∀ e, generate_mesh 1 false (some (⟨0, 0, 1, 1⟩, .error e))
          [(0, 1), (1, 2), (2, 3), (0, 3)]
        = generate_mesh 1 false (some (⟨0, 0, 1, 1⟩, .error e))
          [(2, 3), (0, 3), (0, 1), (1, 2)])) :=
  ⟨by decide, by decide,
   generate_mesh_deterministic_up_to_side_order 1 false ⟨0, 0, 1, 1⟩
     ⟨[(0, 0), (1, 0), (1, 1), (0, 1)], [0, 1, 2, 0, 2, 3]⟩
     [(0, 1), (1, 2), (2, 3), (0, 3)] [(2, 3), (0, 3), (0, 1), (1, 2)]
     (by decide) (by decide)⟩

/-- C4: in extruded mode the final index buffer holds exactly
`3 × (2F + 2B)` entries, i.e. `2F + 2B` triangles: `F` front-cap triangles,
`F` reversed back-cap triangles and two triangles per boundary edge, where `B`
is the number of edges surviving boundary detection. -/
theorem extruded_triangle_count (height : ℚ) (rect : Rect) (t : TessOutput)
    (o : List (ℕ × ℕ)) (F : ℕ)
    (hF : t.indices.length = 3 * F)
    (ho : EdgeOrder t.indices o) :
    (generate_mesh height false (some (rect, .ok t)) o).map (fun m => m.indices.length)
      = .ok (3 * (2 * F + 2 * (edge_set t.indices).card)) := by
  rw [generate_mesh_extruded]
  have hcard : o.length = (edge_set t.indices).card := by
    rw [← ho.2]
    exact (List.toFinset_card_of_nodup ho.1).symm
  simp only [Except.map, List.length_append, revTris_length, sideIndices_length,
    Except.ok.injEq]
  omega

/-- Witness for C4: the square glyph (front face of 2 triangles, 4 boundary
edges) yields 12 triangles and 36 indices. -/
theorem extruded_triangle_count_witness :
    (([0, 1, 2, 0, 2, 3] : List ℕ).length = 3 * 2) ∧
    EdgeOrder [0, 1, 2, 0, 2, 3] [(0, 1), (1, 2), (2, 3), (0, 3)] ∧
    (generate_mesh 1 false (some (⟨0, 0, 1, 1⟩,
        .ok ⟨[(0, 0), (1, 0), (1, 1), (0, 1)], [0, 1, 2, 0, 2, 3]⟩))
        [(0, 1), (1, 2), (2, 3), (0, 3)]).map (fun m => m.indices.length)
      = .ok (3 * (2 * 2 + 2 * (edge_set [0, 1, 2, 0, 2, 3]).card)) ∧
    3 * (2 * 2 + 2 * (edge_set [0, 1, 2, 0, 2, 3]).card) = 36 :=
  ⟨by decide, by decide,
   extruded_triangle_count 1 ⟨0, 0, 1, 1⟩
     ⟨[(0, 0), (1, 0), (1, 1), (0, 1)], [0, 1, 2, 0, 2, 3]⟩
     [(0, 1), (1, 2), (2, 3), (0, 3)] 2 (by decide) (by decide),
   by decide⟩

/-- C5: in extruded mode the vertex buffer is the front vertices (z = 0.5)
followed contiguously by the same vertices with z negated to −0.5 (x, y
unchanged) at offset `r` = front vertex count; the back-cap triangles are the
front-cap triples reversed ((a,b,c) becomes (c,b,a)); and the index buffer is
front-cap indices, then back-cap indices, then side-wall indices. -/
theorem extruded_back_cap_layout (height : ℚ) (rect : Rect) (t : TessOutput)
    (o : List (ℕ × ℕ)) (m : Mesh)
    (hm : generate_mesh height false (some (rect, .ok t)) o = .ok m) :
    m.vertices = t.vertices.map (fun p => (p.1, p.2, (0.5 : ℚ)))
        ++ t.vertices.map (fun p => (p.1, p.2, -(0.5 : ℚ))) ∧
    m.indices = t.indices ++ revTris t.indices ++ sideIndices t.vertices.length o ∧
    triChunks (revTris t.indices)
        = (triChunks t.indices).map (fun tr => (tr.2.2, tr.2.1, tr.1)) := by
  rw [generate_mesh_extruded] at hm
  rw [← Except.ok.inj hm]
  refine ⟨?_, ?_, triChunks_revTris t.indices⟩
  · simp [List.map_map]
  · simp

/-- Witness for C5 at the extruded unit square. -/
theorem extruded_back_cap_layout_witness :
    (let m : Mesh :=
      ⟨⟨(((0 : ℤ) : ℚ) * (1 / 1), ((0 : ℤ) : ℚ) * (1 / 1), -(0.5 : ℚ)),
        (((1 : ℤ) : ℚ) * (1 / 1), ((1 : ℤ) : ℚ) * (1 / 1), (0.5 : ℚ))⟩,
       [0, 1, 2, 0, 2, 3, 2, 1, 0, 3, 2, 0,
        0, 1, 5, 4, 0, 5, 1, 2, 6, 5, 1, 6, 2, 3, 7, 6, 2, 7, 0, 3, 7, 4, 0, 7],
       [(0, 0, 0.5), (1, 0, 0.5), (1, 1, 0.5), (0, 1, 0.5),
        (0, 0, -0.5), (1, 0, -0.5), (1, 1, -0.5), (0, 1, -0.5)]⟩
     m.vertices = ([(0, 0), (1, 0), (1, 1), (0, 1)] : List (ℚ × ℚ)).map
          (fun p => (p.1, p.2, (0.5 : ℚ)))
        ++ ([(0, 0), (1, 0), (1, 1), (0, 1)] : List (ℚ × ℚ)).map
          (fun p => (p.1, p.2, -(0.5 : ℚ))) ∧
     m.indices = [0, 1, 2, 0, 2, 3] ++ revTris [0, 1, 2, 0, 2, 3]
        ++ sideIndices ([(0, 0), (1, 0), (1, 1), (0, 1)] : List (ℚ × ℚ)).length
            [(0, 1), (1, 2), (2, 3), (0, 3)] ∧
     triChunks (revTris [0, 1, 2, 0, 2, 3])
        = (triChunks [0, 1, 2, 0, 2, 3]).map (fun tr => (tr.2.2, tr.2.1, tr.1))) :=
  extruded_back_cap_layout 1 ⟨0, 0, 1, 1⟩
    ⟨[(0, 0), (1, 0), (1, 1), (0, 1)], [0, 1, 2, 0, 2, 3]⟩
    [(0, 1), (1, 2), (2, 3), (0, 3)] _ rfl

/-- C8: when the font outline source reports no outline (a space character),
mesh generation succeeds with zero vertices, zero indices and a bounding box
whose corners both equal (0,0,0), in flat and extruded mode alike — in both
the `lib.rs` `generate_mesh` and the `mesh_generator.rs` `make_mesh`
pipelines. -/
theorem no_outline_empty_mesh (height : ℚ) (flat : Bool) (o : List (ℕ × ℕ)) :
    generate_mesh height flat none o = .ok ⟨⟨(0, 0, 0), (0, 0, 0)⟩, [], []⟩ ∧
    MGen.make_mesh height flat none = .ok ([], ⟨(0, 0, 0), (0, 0, 0)⟩) := by
  refine ⟨rfl, ?_⟩
  unfold MGen.make_mesh
  cases flat <;> simp

/-- C9 (adapter modelled from the spec, `util.rs` not being under `src/`):
for every Outline containing a contour whose edge chain is not closed, the
Triangulation Adapter fails with the distinct `MalformedOutline` error for
every possible triangulation engine — so the engine is never consulted — and
`make_mesh` surfaces that failure unchanged. -/
theorem open_contour_rejected (o : Outline) (c : List ℕ)
    (hc : c ∈ o.contours) (hopen : contourClosed c = false)
    (triangulate : List Point → List (ℕ × ℕ) → Except ℕ (List (ℕ × ℕ × ℕ)))
    (height : ℚ) (flat : Bool) (rect : Rect) :
    raster_to_mesh triangulate o = .error .MalformedOutline ∧
    MGen.make_mesh height flat (some (rect, .error .MalformedOutline))
      = .error .MalformedOutline ∧
    ∀ e, (MeshTextError.MalformedOutline : MeshTextError)
      ≠ .GlyphTriangulationError e := by
  refine ⟨?_, rfl, fun e h => by cases h⟩
  unfold raster_to_mesh
  have hall : o.contours.all contourClosed = false := by
    rw [List.all_eq_false]
    exact ⟨c, hc, by simp [hopen]⟩
  rw [hall]
  simp

/-- Witness for C9 on a three-point open contour. -/
theorem open_contour_rejected_witness :
    ([0, 1, 2] ∈ (Outline.mk [[0, 1, 2]] [(0, 0), (1, 0), (0, 1)]).contours) ∧
    contourClosed [0, 1, 2] = false ∧
    (raster_to_mesh (fun _ _ => .ok []) (Outline.mk [[0, 1, 2]] [(0, 0), (1, 0), (0, 1)])
        = .error .MalformedOutline ∧
     MGen.make_mesh 1 false (some (⟨0, 0, 1, 1⟩, .error .MalformedOutline))
        = .error .MalformedOutline ∧
     ∀ e, (MeshTextError.MalformedOutline : MeshTextError)
        ≠ .GlyphTriangulationError e) :=
  ⟨by decide, by decide,
   open_contour_rejected (Outline.mk [[0, 1, 2]] [(0, 0), (1, 0), (0, 1)]) [0, 1, 2]
     (by decide) (by decide) (fun _ _ => .ok []) 1 false ⟨0, 0, 1, 1⟩⟩

/-- C10: every successful `generate_mesh` result has an index-buffer length
divisible by 3, and every index addresses a vertex inside the vertex buffer;
in extruded mode the side-wall indices `a`, `b`, `b + r`, `a + r` with
`r` = front vertex count stay within the doubled vertex buffer. -/
theorem generate_mesh_index_invariant (height : ℚ) (flat : Bool)
    (outlined : Option (Rect × Except TessellationError TessOutput))
    (o : List (ℕ × ℕ))
    (hww : ∀ rect t, outlined = some (rect, .ok t) →
      t.indices.length % 3 = 0 ∧ (∀ i ∈ t.indices, i < t.vertices.length) ∧
        EdgeOrder t.indices o) :
    ∀ m, generate_mesh height flat outlined o = .ok m →
      m.indices.length % 3 = 0 ∧ ∀ i ∈ m.indices, i < m.vertices.length := by
  intro m hm
  match houtl : outlined, hm with
  | none, hm =>
      rw [← Except.ok.inj hm]
      exact ⟨rfl, by simp⟩
  | some (rect, .error e), hm =>
      exact absurd hm (by simp [generate_mesh])
  | some (rect, .ok t), hm =>
      obtain ⟨hlen, hlt, ho⟩ := hww rect t rfl
      cases flat with
      | true =>
          rw [generate_mesh_flat] at hm
          rw [← Except.ok.inj hm]
          refine ⟨hlen, ?_⟩
          intro i hi
          simpa using hlt i hi
      | false =>
          rw [generate_mesh_extruded] at hm
          rw [← Except.ok.inj hm]
          constructor
          · simp only [List.length_append, revTris_length, sideIndices_length]
            omega
          · intro i hi
            simp only [List.length_append, List.length_map]
            simp only [List.mem_append] at hi
            have hn : ∀ j ∈ t.indices, j < t.vertices.length := hlt
            rcases hi with (hi | hi) | hi
            · have := hn i hi; omega
            · have := hn i (revTris_mem hi); omega
            · obtain ⟨e, he, hie⟩ := List.mem_flatMap.mp hi
              have heset : e ∈ edge_set t.indices := by
                rw [← ho.2]
                exact List.mem_toFinset.mpr he
              obtain ⟨ha, hb⟩ : e.1 ∈ t.indices ∧ e.2 ∈ t.indices := by
                have := edge_set_mem_le (l := t.indices) (a := e.1) (b := e.2)
                exact this heset
              have h1 := hn e.1 ha
              have h2 := hn e.2 hb
              simp only [List.mem_cons, List.not_mem_nil, or_false,
                List.length_map] at hie
              rcases hie with h | h | h | h | h | h <;> subst h <;> omega

/-- Witness for C10 at the extruded unit square. -/
theorem generate_mesh_index_invariant_witness :
    (let m : Mesh :=
      ⟨⟨(((0 : ℤ) : ℚ) * (1 / 1), ((0 : ℤ) : ℚ) * (1 / 1), -(0.5 : ℚ)),
        (((1 : ℤ) : ℚ) * (1 / 1), ((1 : ℤ) : ℚ) * (1 / 1), (0.5 : ℚ))⟩,
       [0, 1, 2, 0, 2, 3, 2, 1, 0, 3, 2, 0,
        0, 1, 5, 4, 0, 5, 1, 2, 6, 5, 1, 6, 2, 3, 7, 6, 2, 7, 0, 3, 7, 4, 0, 7],
       [(0, 0, 0.5), (1, 0, 0.5), (1, 1, 0.5), (0, 1, 0.5),
        (0, 0, -0.5), (1, 0, -0.5), (1, 1, -0.5), (0, 1, -0.5)]⟩
     m.indices.length % 3 = 0 ∧ ∀ i ∈ m.indices, i < m.vertices.length) :=
  generate_mesh_index_invariant 1 false
    (some (⟨0, 0, 1, 1⟩, .ok ⟨[(0, 0), (1, 0), (1, 1), (0, 1)], [0, 1, 2, 0, 2, 3]⟩))
    [(0, 1), (1, 2), (2, 3), (0, 3)]
    (fun rect t h => by
      injection h with h1
      injection h1 with h2 h3
      injection h3 with h4
      subst h4
      exact ⟨by decide, by decide, by decide⟩)
    _ rfl

end Meshtext
